import Mathlib

/-!
Shallow embedding of the `physics` crate (src/): a compile-time
dimensional-analysis library of unit-tagged scalars and 2D vectors plus a
bounded angle type.

Modelling conventions:
* the crate's `Float` (`f64`) is modelled as `ℝ`, with exact real arithmetic;
* Rust's float remainder `a % b` (remainder of truncating division) is
  `fmod a b = a - b * trunc (a / b)`, written with floor/ceil on the sign of
  the quotient;
* the one place the crate divides by zero and feeds the result to `atan`
  (`Vector::get_angle` via `(self.x / self.y).atan()`) is embedded by
  `atanQuot`, which follows IEEE 754: `x / 0` is `±∞` for `x ≠ 0` and
  `atan (±∞) = ±π/2`.  Its `x = 0, y = 0` case (NaN in IEEE) is unreachable
  from `get_angle`, which returns `none` for the zero vector first.
-/

namespace Physics

open scoped Classical

/-- Rust `a % b` on floats: the remainder of truncating division,
`a - b * trunc (a / b)`. -/
noncomputable def fmod (a b : ℝ) : ℝ :=
  a - b * (if 0 ≤ a / b then (⌊a / b⌋ : ℝ) else (⌈a / b⌉ : ℝ))

/-- `struct Angle(Float)` from src/angles.rs. -/
structure Angle where
  radians : ℝ

/-- `Angle::MAX = 2.0 * PI` (`Angle::MIN` is `0.0`). -/
noncomputable def twoPi : ℝ := 2 * Real.pi

/-- `Angle::in_radians`: wrap a raw radian value into the canonical range.
A negative input is negated, reduced `% MAX` and reflected through the top of
the range; an input `>= MAX` is reduced `% MAX`; otherwise it is returned
unchanged. -/
noncomputable def Angle.in_radians (radians : ℝ) : Angle :=
  if radians < 0 then ⟨-(fmod (-radians) twoPi) + twoPi⟩
  else if twoPi ≤ radians then ⟨fmod radians twoPi⟩
  else ⟨radians⟩

/-- `Angle::get_radians`: degrees to radians. -/
noncomputable def Angle.get_radians (degrees : ℝ) : ℝ :=
  degrees * Real.pi / 180

/-- `Angle::in_degrees`. -/
noncomputable def Angle.in_degrees (degrees : ℝ) : Angle :=
  Angle.in_radians (Angle.get_radians degrees)

/-- `Angle::get_degrees`. -/
noncomputable def Angle.get_degrees (a : Angle) : ℝ :=
  a.radians * 180 / Real.pi

/-- `Angle::sin`. -/
noncomputable def Angle.sin (a : Angle) : ℝ := Real.sin a.radians

/-- `Angle::cos`. -/
noncomputable def Angle.cos (a : Angle) : ℝ := Real.cos a.radians

/-- `Angle::tan`. -/
noncomputable def Angle.tan (a : Angle) : ℝ := Real.tan a.radians

/-- `impl Mul<Float> for Angle`: renormalizes. -/
noncomputable def Angle.mul (a : Angle) (rhs : ℝ) : Angle :=
  Angle.in_radians (a.radians * rhs)

/-- `impl MulAssign<Float> for Angle`: `self.0 *= rhs`, with NO
renormalization. -/
noncomputable def Angle.mulAssign (a : Angle) (rhs : ℝ) : Angle :=
  ⟨a.radians * rhs⟩

/-- `impl Div<Float> for Angle`: renormalizes. -/
noncomputable def Angle.div (a : Angle) (rhs : ℝ) : Angle :=
  Angle.in_radians (a.radians / rhs)

/-- `impl DivAssign<Float> for Angle`: `self.0 /= rhs`, with NO
renormalization. -/
noncomputable def Angle.divAssign (a : Angle) (rhs : ℝ) : Angle :=
  ⟨a.radians / rhs⟩

/-- `impl Add for Angle`: renormalizes. -/
noncomputable def Angle.add (a rhs : Angle) : Angle :=
  Angle.in_radians (a.radians + rhs.radians)

/-- `impl AddAssign for Angle`: `*self = *self + rhs`. -/
noncomputable def Angle.addAssign (a rhs : Angle) : Angle := a.add rhs

/-- `impl Sub for Angle`: renormalizes. -/
noncomputable def Angle.sub (a rhs : Angle) : Angle :=
  Angle.in_radians (a.radians - rhs.radians)

/-- `impl SubAssign for Angle`: `*self = *self - rhs`. -/
noncomputable def Angle.subAssign (a rhs : Angle) : Angle := a.sub rhs

/-- Modelled from the spec: the negation `-angle` that
`Vector::from_magnitude_and_angle` applies before taking sine and cosine
(spec §4.3: "internally negates the angle before applying sine/cosine").
No `Neg` impl for `Angle` appears in src/; it is modelled as renormalized
negation of the radian value, in the style of the crate's other `Angle`
operators (note `Angle::mul` gives `angle * -1.0` exactly this value). -/
noncomputable def Angle.neg (a : Angle) : Angle :=
  Angle.in_radians (-a.radians)

/-! ### Unit tags, scalars and vectors -/

/-- The crate's closed set of unit marker types (src/units.rs, plus the tags
named by src/types.rs and src/conversion.rs, and `Float` itself, used as the
dimensionless tag of `UnitVector = Vector<Float>`). -/
inductive UnitTag
  | unitless
  | seconds
  | secondsSquared
  | kilograms
  | meters
  | metersPerSecond
  | metersPerSecondSquared
  | kelvin
  | newtons
  | joules
  | joulesPerKilogram
  | joulesPerSecond
  | kilogramsPerSecond
  | kilogramsPerMeterCubed
  | metersSquared
  | metersCubed
  | pixels
  | metersPerPixel
  | radians
  | radiansPerSecond
  | float
  deriving DecidableEq

/-- `struct Scalar<T>` (src/scalars.rs): one float tagged by a phantom unit. -/
structure Scalar (U : UnitTag) where
  value : ℝ

/-- `Scalar::zero`. -/
def Scalar.zero (U : UnitTag) : Scalar U := ⟨0⟩

/-- `impl Add for Scalar<T>`. -/
def Scalar.add {U : UnitTag} (a rhs : Scalar U) : Scalar U := ⟨a.value + rhs.value⟩

/-- `impl Sub for Scalar<T>`. -/
def Scalar.sub {U : UnitTag} (a rhs : Scalar U) : Scalar U := ⟨a.value - rhs.value⟩

/-- `impl Mul<Float> for Scalar<T>`. -/
def Scalar.mulFloat {U : UnitTag} (a : Scalar U) (rhs : ℝ) : Scalar U := ⟨a.value * rhs⟩

/-- `impl Div<Float> for Scalar<T>`. -/
noncomputable def Scalar.divFloat {U : UnitTag} (a : Scalar U) (rhs : ℝ) : Scalar U := ⟨a.value / rhs⟩

/-- `impl Div<Self> for Scalar<T>`: dividing two same-unit scalars yields a
plain float, `self.value / rhs.value`. -/
noncomputable def Scalar.divSelf {U : UnitTag} (a rhs : Scalar U) : ℝ := a.value / rhs.value

/-- `impl Neg for Scalar<T>`: `self * -1.0`. -/
def Scalar.neg {U : UnitTag} (a : Scalar U) : Scalar U := a.mulFloat (-1)

/-- `struct Vector<T>` (src/vectors.rs): an (x, y) pair of `Scalar<T>`. -/
structure Vector (U : UnitTag) where
  x : Scalar U
  y : Scalar U

/-- `Vector::zero`. -/
def Vector.zero (U : UnitTag) : Vector U := ⟨Scalar.zero U, Scalar.zero U⟩

/-- `Vector::magnitude_squared`: `x.value.powi(2) + y.value.powi(2)`, a plain
float. -/
def Vector.magnitude_squared {U : UnitTag} (v : Vector U) : ℝ :=
  v.x.value ^ 2 + v.y.value ^ 2

/-- `Vector::magnitude`: `magnitude_squared().sqrt().into()`, re-tagged back
to `U`. -/
noncomputable def Vector.magnitude {U : UnitTag} (v : Vector U) : Scalar U :=
  ⟨Real.sqrt v.magnitude_squared⟩

/-- `UnitVector = Vector<Float>` (src/types.rs). -/
abbrev UnitVector := Vector UnitTag.float

/-- `Vector::unit_vector`: `None` for the zero vector, otherwise the vector
divided component-wise by its magnitude (each `Scalar<T> / Scalar<T>`
division yielding a plain float re-wrapped as dimensionless). -/
noncomputable def Vector.unit_vector {U : UnitTag} (v : Vector U) : Option UnitVector :=
  if v = Vector.zero U then none
  else some ⟨⟨v.x.divSelf v.magnitude⟩, ⟨v.y.divSelf v.magnitude⟩⟩

/-- `Vector::rotate_cw`: rotation matrix with the angle's cosine and sine,
`x' = cos*x - sin*y`, `y' = sin*x + cos*y`. -/
noncomputable def Vector.rotate_cw {U : UnitTag} (v : Vector U) (angle : Angle) : Vector U :=
  ⟨⟨angle.cos * v.x.value - angle.sin * v.y.value⟩,
   ⟨angle.sin * v.x.value + angle.cos * v.y.value⟩⟩

/-- `Vector::from_magnitude_and_angle`: negates the angle, then
`x = -sin * magnitude`, `y = cos * magnitude`. -/
noncomputable def Vector.from_magnitude_and_angle (U : UnitTag) (magnitude : Scalar U)
    (angle : Angle) : Vector U :=
  ⟨⟨-(angle.neg.sin) * magnitude.value⟩, ⟨angle.neg.cos * magnitude.value⟩⟩

/-- The f64 value of `(x / y).atan()` as `Vector::atan` computes it:
for `y ≠ 0` this is `arctan (x / y)`; for `y = 0` and `x ≠ 0` IEEE 754 gives
`x / 0 = ±∞` and `atan (±∞) = ±π/2`.  The remaining case `x = y = 0`
(`0/0 = NaN` in IEEE) is unreachable from `get_angle`, which filters the zero
vector out first; it is mapped to `arctan 0 = 0` here. -/
noncomputable def atanQuot (x y : ℝ) : ℝ :=
  if y = 0 then
    (if 0 < x then Real.pi / 2 else if x < 0 then -(Real.pi / 2) else 0)
  else Real.arctan (x / y)

/-- `Vector::atan`: `Angle::in_radians((self.x / self.y).atan())`. -/
noncomputable def Vector.atan {U : UnitTag} (v : Vector U) : Angle :=
  Angle.in_radians (atanQuot v.x.value v.y.value)

/-- `Vector::get_angle`: `None` for the zero vector; otherwise the arctangent
of x over y with quadrant correction (both components negative: subtract
180°; only y negative: add 180°; otherwise the base arctangent). -/
noncomputable def Vector.get_angle {U : UnitTag} (v : Vector U) : Option Angle :=
  if v = Vector.zero U then none
  else if v.x.value < 0 ∧ v.y.value < 0 then some (v.atan.sub (Angle.in_degrees 180))
  else if v.y.value < 0 then some ((Angle.in_degrees 180).add v.atan)
  else some v.atan

/-- `impl Add for Vector<T>`. -/
def Vector.add {U : UnitTag} (v rhs : Vector U) : Vector U :=
  ⟨v.x.add rhs.x, v.y.add rhs.y⟩

/-- `impl Sub for Vector<T>`. -/
def Vector.sub {U : UnitTag} (v rhs : Vector U) : Vector U :=
  ⟨v.x.sub rhs.x, v.y.sub rhs.y⟩

/-- `impl Mul<Float> for Vector<T>`. -/
def Vector.mulFloat {U : UnitTag} (v : Vector U) (rhs : ℝ) : Vector U :=
  ⟨v.x.mulFloat rhs, v.y.mulFloat rhs⟩

/-- `impl Div<Float> for Vector<T>`. -/
noncomputable def Vector.divFloat {U : UnitTag} (v : Vector U) (rhs : ℝ) : Vector U :=
  ⟨v.x.divFloat rhs, v.y.divFloat rhs⟩

/-- `impl Div<Scalar<T>> for Vector<T>`: dividing a vector by a same-unit
scalar yields the dimensionless `Vector<Float>` of the component-wise value
quotients. -/
noncomputable def Vector.divScalarSame {U : UnitTag} (v : Vector U) (rhs : Scalar U) : Vector UnitTag.float :=
  ⟨⟨v.x.value / rhs.value⟩, ⟨v.y.value / rhs.value⟩⟩

/-- `impl Mul<UnitVector> for Scalar<T>`: scales a dimensionless unit vector
back into unit `U`, component-wise on the values. -/
def Scalar.mulUnitVector {U : UnitTag} (s : Scalar U) (rhs : UnitVector) : Vector U :=
  ⟨⟨s.value * rhs.x.value⟩, ⟨s.value * rhs.y.value⟩⟩

/-- `impl Mul<Scalar<T>> for UnitVector`: defined as `rhs * self`. -/
def Vector.unitVectorMul (u : UnitVector) {U : UnitTag} (rhs : Scalar U) : Vector U :=
  rhs.mulUnitVector u

/-! ### Conversion algebra (src/conversion.rs)

`divide_convert_scalars!(N, D, R)` registers the relation `N = D × R` and
generates four operator impls with fixed bodies; the registered triples are
the macro's invocation list.  `ScalarTriple N D R` enumerates exactly those
invocations, and each generated operator is one definition taking the
registration as an argument. -/

/-- The `divide_convert_scalars!` invocation list: `ScalarTriple N D R` holds
exactly when `divide_convert_scalars!(N, D, R)` (directly or through
`divide_convert!`) appears in src/conversion.rs. -/
inductive ScalarTriple : UnitTag → UnitTag → UnitTag → Prop
  | meters_seconds : ScalarTriple .meters .seconds .metersPerSecond
  | mps_seconds : ScalarTriple .metersPerSecond .seconds .metersPerSecondSquared
  | newtons_kilograms : ScalarTriple .newtons .kilograms .metersPerSecondSquared
  | meters_secondsSquared : ScalarTriple .meters .secondsSquared .metersPerSecondSquared
  | joules_meters : ScalarTriple .joules .meters .newtons
  | joules_kilograms : ScalarTriple .joules .kilograms .joulesPerKilogram
  | joules_seconds : ScalarTriple .joules .seconds .joulesPerSecond
  | jps_jpk : ScalarTriple .joulesPerSecond .joulesPerKilogram .kilogramsPerSecond
  | kilograms_seconds : ScalarTriple .kilograms .seconds .kilogramsPerSecond
  | metersCubed_meters : ScalarTriple .metersCubed .meters .metersSquared
  | kilograms_metersCubed : ScalarTriple .kilograms .metersCubed .kilogramsPerMeterCubed
  | meters_pixels : ScalarTriple .meters .pixels .metersPerPixel
  | radians_seconds : ScalarTriple .radians .seconds .radiansPerSecond

/-- The `divide_convert_vectors!` invocation list (the four
`divide_convert!` lines). -/
inductive VectorTriple : UnitTag → UnitTag → UnitTag → Prop
  | meters_seconds : VectorTriple .meters .seconds .metersPerSecond
  | mps_seconds : VectorTriple .metersPerSecond .seconds .metersPerSecondSquared
  | meters_pixels : VectorTriple .meters .pixels .metersPerPixel
  | radians_seconds : VectorTriple .radians .seconds .radiansPerSecond

/-- The `squares_scalar!` invocation list: `SquareRel A A2` when
`squares_scalar!(A, A2)` appears. -/
inductive SquareRel : UnitTag → UnitTag → Prop
  | meters : SquareRel .meters .metersSquared
  | seconds : SquareRel .seconds .secondsSquared

/-- Generated `impl Div<Scalar<D>> for Scalar<N>` (output `Scalar<R>`):
`self.value / rhs.value`. -/
noncomputable def Scalar.convDivDenom {N D R : UnitTag} (_h : ScalarTriple N D R)
    (a : Scalar N) (rhs : Scalar D) : Scalar R := ⟨a.value / rhs.value⟩

/-- Generated `impl Div<Scalar<R>> for Scalar<N>` (output `Scalar<D>`). -/
noncomputable def Scalar.convDivResult {N D R : UnitTag} (_h : ScalarTriple N D R)
    (a : Scalar N) (rhs : Scalar R) : Scalar D := ⟨a.value / rhs.value⟩

/-- Generated `impl Mul<Scalar<D>> for Scalar<R>` (output `Scalar<N>`):
`self.value * rhs.value`. -/
def Scalar.convMulRD {N D R : UnitTag} (_h : ScalarTriple N D R)
    (a : Scalar R) (rhs : Scalar D) : Scalar N := ⟨a.value * rhs.value⟩

/-- Generated `impl Mul<Scalar<R>> for Scalar<D>` (output `Scalar<N>`), the
commuted operand order. -/
def Scalar.convMulDR {N D R : UnitTag} (_h : ScalarTriple N D R)
    (a : Scalar D) (rhs : Scalar R) : Scalar N := ⟨a.value * rhs.value⟩

/-- Generated `impl Div<Scalar<D>> for Vector<N>` (output `Vector<R>`):
component-wise `Scalar<N> / Scalar<D>` conversions. -/
noncomputable def Vector.convDiv {N D R : UnitTag} (_h : VectorTriple N D R)
    (v : Vector N) (rhs : Scalar D) : Vector R :=
  ⟨⟨v.x.value / rhs.value⟩, ⟨v.y.value / rhs.value⟩⟩

/-- Generated `impl Mul<Scalar<D>> for Vector<R>` (output `Vector<N>`). -/
def Vector.convMulVS {N D R : UnitTag} (_h : VectorTriple N D R)
    (v : Vector R) (rhs : Scalar D) : Vector N :=
  ⟨⟨v.x.value * rhs.value⟩, ⟨v.y.value * rhs.value⟩⟩

/-- Generated `impl Mul<Vector<R>> for Scalar<D>` (output `Vector<N>`), the
commuted operand order. -/
def Vector.convMulSV {N D R : UnitTag} (_h : VectorTriple N D R)
    (s : Scalar D) (rhs : Vector R) : Vector N :=
  ⟨⟨s.value * rhs.x.value⟩, ⟨s.value * rhs.y.value⟩⟩

/-- Generated `impl Mul for Scalar<A>` (output `Scalar<A2>`) from
`squares_scalar!`. -/
def Scalar.squareMul {A A2 : UnitTag} (_h : SquareRel A A2)
    (a rhs : Scalar A) : Scalar A2 := ⟨a.value * rhs.value⟩

/-- Generated `impl Div<Scalar<A>> for Scalar<A2>` (output `Scalar<A>`) from
`squares_scalar!`. -/
noncomputable def Scalar.squareDiv {A A2 : UnitTag} (_h : SquareRel A A2)
    (a : Scalar A2) (rhs : Scalar A) : Scalar A := ⟨a.value / rhs.value⟩

/-! ### Basic facts about the normalization -/

theorem twoPi_def : twoPi = 2 * Real.pi := rfl

theorem twoPi_pos : 0 < twoPi := by
  have := Real.pi_pos; rw [twoPi_def]; linarith

theorem fmod_of_nonneg (a : ℝ) {b : ℝ} (ha : 0 ≤ a) (hb : 0 < b) :
    fmod a b = a - b * ⌊a / b⌋ := by
  rw [fmod, if_pos (div_nonneg ha hb.le)]

/-- For a nonnegative dividend and positive divisor, Rust `%` is the
floor-modulus, `b` times the fractional part of `a / b`. -/
theorem fmod_eq_fract (a : ℝ) {b : ℝ} (ha : 0 ≤ a) (hb : 0 < b) :
    fmod a b = b * Int.fract (a / b) := by
  rw [fmod_of_nonneg a ha hb, Int.fract, mul_sub, mul_div_cancel₀ _ hb.ne']

theorem in_radians_of_Ico {r : ℝ} (h0 : 0 ≤ r) (h2 : r < twoPi) :
    Angle.in_radians r = ⟨r⟩ := by
  rw [Angle.in_radians, if_neg (not_lt.2 h0), if_neg (not_le.2 h2)]

theorem in_radians_of_neg {r : ℝ} (h1 : -twoPi < r) (h2 : r < 0) :
    Angle.in_radians r = ⟨r + twoPi⟩ := by
  rw [Angle.in_radians, if_pos h2]
  have hfl : ⌊-r / twoPi⌋ = 0 := by
    rw [Int.floor_eq_zero_iff]
    constructor
    · exact div_nonneg (by linarith) twoPi_pos.le
    · rw [div_lt_one twoPi_pos]; linarith
  rw [fmod_of_nonneg _ (by linarith) twoPi_pos, hfl]
  norm_num

theorem in_radians_of_Ico2 {r : ℝ} (h1 : twoPi ≤ r) (h2 : r < 2 * twoPi) :
    Angle.in_radians r = ⟨r - twoPi⟩ := by
  have h0 : (0 : ℝ) ≤ r := le_trans twoPi_pos.le h1
  rw [Angle.in_radians, if_neg (not_lt.2 h0), if_pos h1]
  have hfl : ⌊r / twoPi⌋ = 1 := by
    rw [Int.floor_eq_iff]
    constructor
    · push_cast; rw [le_div_iff₀ twoPi_pos]; linarith
    · push_cast; rw [div_lt_iff₀ twoPi_pos]; linarith
  rw [fmod_of_nonneg _ h0 twoPi_pos, hfl]
  norm_num

/-- Whatever the input, the constructor changes it by an integer multiple of
`2π`. -/
theorem in_radians_sub_int_mul (r : ℝ) :
    ∃ k : ℤ, (Angle.in_radians r).radians = r + k * twoPi := by
  rw [Angle.in_radians]
  by_cases h1 : r < 0
  · rw [if_pos h1]
    refine ⟨⌊-r / twoPi⌋ + 1, ?_⟩
    rw [fmod_of_nonneg _ (by linarith) twoPi_pos]
    push_cast
    ring
  · rw [if_neg h1]
    by_cases h2 : twoPi ≤ r
    · rw [if_pos h2]
      refine ⟨-⌊r / twoPi⌋, ?_⟩
      rw [fmod_of_nonneg _ (not_lt.1 h1) twoPi_pos]
      push_cast
      ring
    · rw [if_neg h2]
      exact ⟨0, by simp⟩

/-- Normalization preserves the sine of the stored value. -/
theorem sin_in_radians (r : ℝ) :
    Real.sin (Angle.in_radians r).radians = Real.sin r := by
  obtain ⟨k, hk⟩ := in_radians_sub_int_mul r
  rw [hk, twoPi_def, Real.sin_add_int_mul_two_pi]

/-- Normalization preserves the cosine of the stored value. -/
theorem cos_in_radians (r : ℝ) :
    Real.cos (Angle.in_radians r).radians = Real.cos r := by
  obtain ⟨k, hk⟩ := in_radians_sub_int_mul r
  rw [hk, twoPi_def, Real.cos_add_int_mul_two_pi]

/-- For inputs that are not an exact multiple of `2π`, the constructor lands
on `2π` times the fractional part of `r / 2π` — one uniform formula across
its three branches. -/
theorem in_radians_eq_fract {r : ℝ} (h : ∀ m : ℤ, r ≠ twoPi * m) :
    (Angle.in_radians r).radians = twoPi * Int.fract (r / twoPi) := by
  rw [Angle.in_radians]
  by_cases h1 : r < 0
  · rw [if_pos h1]
    have hfr : Int.fract (r / twoPi) ≠ 0 := by
      intro h0
      apply h ⌊r / twoPi⌋
      have hfa := Int.floor_add_fract (r / twoPi)
      rw [h0, add_zero] at hfa
      have := (div_eq_iff twoPi_pos.ne').mp hfa.symm
      rw [mul_comm]
      exact this
    have hneg : Int.fract (-(r / twoPi)) = 1 - Int.fract (r / twoPi) :=
      Int.fract_neg hfr
    rw [fmod_eq_fract _ (by linarith) twoPi_pos, neg_div, hneg]
    ring
  · rw [if_neg h1]
    by_cases h2 : twoPi ≤ r
    · rw [if_pos h2, fmod_eq_fract _ (not_lt.1 h1) twoPi_pos]
    · rw [if_neg h2]
      have : Int.fract (r / twoPi) = r / twoPi := by
        rw [Int.fract_eq_self]
        constructor
        · exact div_nonneg (not_lt.1 h1) twoPi_pos.le
        · rw [div_lt_one twoPi_pos]; exact not_le.1 h2
      rw [this, mul_div_cancel₀ _ twoPi_pos.ne']

/-- Away from the multiples of `2π` the constructor's result is canonical. -/
theorem in_radians_mem_Ico {r : ℝ} (h : ∀ m : ℤ, r ≠ twoPi * m) :
    0 ≤ (Angle.in_radians r).radians ∧ (Angle.in_radians r).radians < twoPi := by
  rw [in_radians_eq_fract h]
  constructor
  · exact mul_nonneg twoPi_pos.le (Int.fract_nonneg _)
  · exact mul_lt_of_lt_one_right twoPi_pos (Int.fract_lt_one _)

theorem Angle.eq_iff {a b : Angle} : a = b ↔ a.radians = b.radians := by
  cases a; cases b; simp

/-- At a negative exact multiple of `2π` the reflection trick lands on `2π`
itself: `- (2π % 2π) + 2π = 2π`, which is NOT inside the canonical half-open
range. -/
theorem in_radians_neg_twoPi : Angle.in_radians (-twoPi) = ⟨twoPi⟩ := by
  have h := twoPi_pos
  rw [Angle.in_radians, if_pos (by linarith : -twoPi < 0), neg_neg,
    fmod_of_nonneg _ h.le h, div_self h.ne']
  norm_num

theorem not_int_multiple_of_360 {d : ℝ} (h0 : 0 < d) (h1 : d < 360) :
    ∀ m : ℤ, d ≠ 360 * m := by
  intro m hm
  rcases lt_trichotomy m 0 with h | h | h
  · have hm0 : m ≤ -1 := by omega
    have hm1 : (m : ℝ) ≤ -1 := by exact_mod_cast hm0
    nlinarith
  · rw [h] at hm; norm_num at hm; linarith
  · have hm1 : (1 : ℝ) ≤ (m : ℝ) := by exact_mod_cast h
    nlinarith

theorem get_radians_not_multiple {d : ℝ} (h : ∀ m : ℤ, d ≠ 360 * m) :
    ∀ m : ℤ, Angle.get_radians d ≠ twoPi * m := by
  intro m hm
  apply h m
  rw [Angle.get_radians, twoPi_def] at hm
  have h4 := (div_eq_iff (by norm_num : (180 : ℝ) ≠ 0)).mp hm
  have h5 : d * Real.pi = 360 * (m : ℝ) * Real.pi := by ring_nf; ring_nf at h4; linarith
  exact mul_right_cancel₀ Real.pi_ne_zero h5

/-- Core periodicity: away from the multiples of `2π`, the constructor is
`2π`-periodic. -/
theorem in_radians_add_int_mul {r : ℝ} (k : ℤ) (h : ∀ m : ℤ, r ≠ twoPi * m) :
    Angle.in_radians (r + k * twoPi) = Angle.in_radians r := by
  have h2 : ∀ m : ℤ, r + k * twoPi ≠ twoPi * m := by
    intro m hm
    apply h (m - k)
    have hc : ((m - k : ℤ) : ℝ) = (m : ℝ) - k := by push_cast; ring
    rw [hc, mul_sub, ← hm]
    ring
  rw [Angle.eq_iff, in_radians_eq_fract h2, in_radians_eq_fract h]
  have harg : (r + k * twoPi) / twoPi = r / twoPi + k := by
    rw [add_div, mul_div_assoc, div_self twoPi_pos.ne', mul_one]
  rw [harg, Int.fract_add_int]

/-- Degree inputs inside one turn land on `d·π/180` exactly. -/
theorem in_degrees_eq {d : ℝ} (h0 : 0 ≤ d) (h1 : d < 360) :
    Angle.in_degrees d = ⟨d * Real.pi / 180⟩ := by
  have hπ := Real.pi_pos
  rw [Angle.in_degrees, Angle.get_radians]
  apply in_radians_of_Ico
  · exact div_nonneg (mul_nonneg h0 hπ.le) (by norm_num)
  · rw [twoPi_def, div_lt_iff₀ (by norm_num : (0 : ℝ) < 180)]
    nlinarith

theorem Vector.eq_zero_iff {U : UnitTag} (v : Vector U) :
    v = Vector.zero U ↔ v.x.value = 0 ∧ v.y.value = 0 := by
  cases v with
  | mk x y =>
    cases x; cases y
    simp [Vector.zero, Scalar.zero, Vector.mk.injEq, Scalar.mk.injEq]

theorem in_degrees_180 : Angle.in_degrees 180 = ⟨Real.pi⟩ := by
  rw [in_degrees_eq (by norm_num) (by norm_num)]
  rw [Angle.eq_iff]
  ring

/-- The direction the crate reads off a vector given in polar form: for a
positive magnitude `m` and canonical direction `r` (clockwise from the
positive y axis), `get_angle` of `(m·sin r, m·cos r)` recovers exactly `r`. -/
theorem get_angle_polar (U : UnitTag) {m r : ℝ} (hm : 0 < m) (h0 : 0 ≤ r)
    (h2 : r < twoPi) :
    (Vector.get_angle (⟨⟨m * Real.sin r⟩, ⟨m * Real.cos r⟩⟩ : Vector U)) = some ⟨r⟩ := by
  have hπ := Real.pi_pos
  have htp := twoPi_def
  have h2' : r < 2 * Real.pi := by rw [← htp]; exact h2
  have hz : ¬ ((⟨⟨m * Real.sin r⟩, ⟨m * Real.cos r⟩⟩ : Vector U) = Vector.zero U) := by
    rw [Vector.eq_zero_iff]
    intro ⟨hx, hy⟩
    have hs : Real.sin r = 0 := by
      rcases mul_eq_zero.1 hx with h | h
      · exact absurd h hm.ne'
      · exact h
    have hc : Real.cos r = 0 := by
      rcases mul_eq_zero.1 hy with h | h
      · exact absurd h hm.ne'
      · exact h
    have := Real.sin_sq_add_cos_sq r
    rw [hs, hc] at this
    norm_num at this
  rw [Vector.get_angle, if_neg hz]
  dsimp only
  rcases lt_trichotomy r (Real.pi / 2) with hq1 | hq1 | hq1
  · -- first quadrant interior: 0 ≤ r < π/2
    have hs : 0 ≤ Real.sin r := Real.sin_nonneg_of_nonneg_of_le_pi h0 (by linarith)
    have hc : 0 < Real.cos r := Real.cos_pos_of_mem_Ioo ⟨by linarith, hq1⟩
    have hy : 0 < m * Real.cos r := mul_pos hm hc
    rw [if_neg (by intro ⟨_, hcc⟩; nlinarith), if_neg (by intro hcc; nlinarith)]
    rw [Vector.atan]
    dsimp only
    rw [atanQuot, if_neg hy.ne', mul_div_mul_left _ _ hm.ne',
      ← Real.tan_eq_sin_div_cos, Real.arctan_tan (by linarith) hq1,
      in_radians_of_Ico h0 h2]
  · -- r = π/2: due north-east boundary, x = m, y = 0
    rw [if_neg (by rw [hq1, Real.cos_pi_div_two, mul_zero]; intro ⟨_, hcc⟩; exact lt_irrefl _ hcc),
      if_neg (by rw [hq1, Real.cos_pi_div_two, mul_zero]; exact lt_irrefl _)]
    rw [Vector.atan]
    dsimp only
    rw [hq1, Real.cos_pi_div_two, Real.sin_pi_div_two, mul_zero, mul_one]
    rw [atanQuot, if_pos rfl, if_pos hm]
    exact congrArg some (in_radians_of_Ico (by linarith) (by rw [htp]; linarith))
  rcases lt_trichotomy r Real.pi with hq2 | hq2 | hq2
  · -- second quadrant interior: π/2 < r < π
    have hs : 0 < Real.sin r := Real.sin_pos_of_pos_of_lt_pi (by linarith) hq2
    have hc : Real.cos r < 0 := Real.cos_neg_of_pi_div_two_lt_of_lt hq1 (by linarith)
    have hx : 0 < m * Real.sin r := mul_pos hm hs
    have hy : m * Real.cos r < 0 := mul_neg_of_pos_of_neg hm hc
    rw [if_neg (by intro ⟨hcc, _⟩; nlinarith), if_pos hy]
    rw [Vector.atan]
    dsimp only
    have htan : Real.tan (r - Real.pi) = Real.tan r := Real.tan_periodic.sub_eq r
    rw [atanQuot, if_neg hy.ne, mul_div_mul_left _ _ hm.ne',
      ← Real.tan_eq_sin_div_cos, ← htan,
      Real.arctan_tan (by linarith) (by linarith)]
    rw [in_radians_of_neg (by rw [htp]; linarith) (by linarith)]
    rw [in_degrees_180, Angle.add]
    dsimp only
    have harg : Real.pi + (r - Real.pi + twoPi) = r + twoPi := by ring
    rw [harg, in_radians_of_Ico2 (by linarith [twoPi_pos]) (by linarith [twoPi_pos])]
    exact congrArg some (Angle.eq_iff.mpr (by ring))
  · -- r = π: due south, x = 0, y = -m
    rw [if_neg (by rw [hq2, Real.sin_pi, mul_zero]; intro ⟨hcc, _⟩; exact lt_irrefl _ hcc),
      if_pos (by rw [hq2, Real.cos_pi]; nlinarith)]
    rw [Vector.atan]
    dsimp only
    rw [hq2, Real.sin_pi, Real.cos_pi, mul_zero]
    rw [atanQuot, if_neg (by nlinarith : m * (-1) ≠ 0), zero_div, Real.arctan_zero]
    rw [in_radians_of_Ico le_rfl twoPi_pos, in_degrees_180, Angle.add]
    dsimp only
    rw [add_zero, in_radians_of_Ico hπ.le (by rw [htp]; linarith)]
  rcases lt_trichotomy r (3 * Real.pi / 2) with hq3 | hq3 | hq3
  · -- third quadrant interior: π < r < 3π/2
    have hs : Real.sin r < 0 := by
      have h5 := Real.sin_pos_of_pos_of_lt_pi (show 0 < r - Real.pi by linarith)
        (show r - Real.pi < Real.pi by linarith)
      rw [Real.sin_sub_pi] at h5
      linarith
    have hc : Real.cos r < 0 := by
      have h5 : 0 < Real.cos (r - Real.pi) :=
        Real.cos_pos_of_mem_Ioo ⟨by linarith, by linarith⟩
      rw [Real.cos_sub_pi] at h5
      linarith
    have hx : m * Real.sin r < 0 := mul_neg_of_pos_of_neg hm hs
    have hy : m * Real.cos r < 0 := mul_neg_of_pos_of_neg hm hc
    rw [if_pos ⟨hx, hy⟩]
    rw [Vector.atan]
    dsimp only
    have htan : Real.tan (r - Real.pi) = Real.tan r := Real.tan_periodic.sub_eq r
    rw [atanQuot, if_neg hy.ne, mul_div_mul_left _ _ hm.ne',
      ← Real.tan_eq_sin_div_cos, ← htan,
      Real.arctan_tan (by linarith) (by linarith)]
    rw [in_radians_of_Ico (by linarith) (by rw [htp]; linarith)]
    rw [in_degrees_180, Angle.sub]
    dsimp only
    have harg : r - Real.pi - Real.pi = r - twoPi := by rw [htp]; ring
    rw [harg, in_radians_of_neg (by rw [htp]; linarith) (by rw [htp]; linarith)]
    exact congrArg some (Angle.eq_iff.mpr (by ring))
  · -- r = 3π/2: due west, x = -m, y = 0
    have hs : Real.sin (3 * Real.pi / 2) = -1 := by
      have : (3 * Real.pi / 2 : ℝ) = Real.pi / 2 + Real.pi := by ring
      rw [this, Real.sin_add_pi, Real.sin_pi_div_two]
    have hc : Real.cos (3 * Real.pi / 2) = 0 := by
      have : (3 * Real.pi / 2 : ℝ) = Real.pi / 2 + Real.pi := by ring
      rw [this, Real.cos_add_pi, Real.cos_pi_div_two, neg_zero]
    rw [if_neg (by rw [hq3, hc, mul_zero]; intro ⟨_, hcc⟩; exact lt_irrefl _ hcc),
      if_neg (by rw [hq3, hc, mul_zero]; exact lt_irrefl _)]
    rw [Vector.atan]
    dsimp only
    rw [hq3, hs, hc, mul_zero]
    rw [atanQuot, if_pos rfl, if_neg (by nlinarith : ¬ (0 : ℝ) < m * -1),
      if_pos (by nlinarith : m * (-1 : ℝ) < 0)]
    rw [in_radians_of_neg (by rw [htp]; linarith) (by linarith)]
    exact congrArg some (Angle.eq_iff.mpr (by rw [htp]; ring))
  · -- fourth quadrant interior: 3π/2 < r < 2π
    have hs : Real.sin r < 0 := by
      have h5 := Real.sin_pos_of_pos_of_lt_pi (show 0 < r - Real.pi by linarith)
        (show r - Real.pi < Real.pi by linarith)
      rw [Real.sin_sub_pi] at h5
      linarith
    have hc : 0 < Real.cos r := by
      have h5 : 0 < Real.cos (r - 2 * Real.pi) :=
        Real.cos_pos_of_mem_Ioo ⟨by linarith, by linarith⟩
      rw [Real.cos_sub_two_pi] at h5
      exact h5
    have hy : 0 < m * Real.cos r := mul_pos hm hc
    rw [if_neg (by intro ⟨_, hcc⟩; nlinarith), if_neg (by intro hcc; nlinarith)]
    rw [Vector.atan]
    dsimp only
    have htan : Real.tan (r - 2 * Real.pi) = Real.tan r := by
      have harg : r - 2 * Real.pi = r - Real.pi - Real.pi := by ring
      rw [harg, Real.tan_periodic.sub_eq, Real.tan_periodic.sub_eq]
    rw [atanQuot, if_neg hy.ne', mul_div_mul_left _ _ hm.ne',
      ← Real.tan_eq_sin_div_cos, ← htan,
      Real.arctan_tan (by linarith) (by linarith)]
    rw [in_radians_of_neg (by rw [htp]; linarith) (by linarith)]
    exact congrArg some (Angle.eq_iff.mpr (by rw [htp]; ring))

theorem sum_sq_pos_of_ne {x y : ℝ} (h : ¬(x = 0 ∧ y = 0)) : 0 < x ^ 2 + y ^ 2 := by
  rcases eq_or_ne x 0 with hx | hx
  · rcases eq_or_ne y 0 with hy | hy
    · exact absurd ⟨hx, hy⟩ h
    · have hy2 : 0 < y ^ 2 := by rcases hy.lt_or_lt with h5 | h5 <;> nlinarith
      nlinarith [sq_nonneg x]
  · have hx2 : 0 < x ^ 2 := by rcases hx.lt_or_lt with h5 | h5 <;> nlinarith
    nlinarith [sq_nonneg y]

/-- The sine and cosine of `arctan (x / y)`, scaled by the vector magnitude,
recover the components for a positive `y`. -/
theorem arctan_sin_cos_mul {x y : ℝ} (hy : 0 < y) :
    Real.sqrt (x ^ 2 + y ^ 2) * Real.sin (Real.arctan (x / y)) = x
    ∧ Real.sqrt (x ^ 2 + y ^ 2) * Real.cos (Real.arctan (x / y)) = y := by
  have hsum : 0 < x ^ 2 + y ^ 2 := by positivity
  have hsq : 0 < Real.sqrt (x ^ 2 + y ^ 2) := Real.sqrt_pos.mpr hsum
  have h1 : 1 + (x / y) ^ 2 = (x ^ 2 + y ^ 2) / y ^ 2 := by field_simp; ring
  have h2 : Real.sqrt (1 + (x / y) ^ 2) = Real.sqrt (x ^ 2 + y ^ 2) / y := by
    rw [h1, Real.sqrt_div hsum.le, Real.sqrt_sq_eq_abs, abs_of_pos hy]
  constructor
  · rw [Real.sin_arctan, h2]
    field_simp
  · rw [Real.cos_arctan, h2]
    field_simp

/-- The same for a negative `y`: both products flip sign. -/
theorem arctan_sin_cos_mul_neg {x y : ℝ} (hy : y < 0) :
    Real.sqrt (x ^ 2 + y ^ 2) * Real.sin (Real.arctan (x / y)) = -x
    ∧ Real.sqrt (x ^ 2 + y ^ 2) * Real.cos (Real.arctan (x / y)) = -y := by
  have h := arctan_sin_cos_mul (x := -x) (y := -y) (by linarith)
  rw [neg_div_neg_eq, neg_sq, neg_sq] at h
  exact h

/-- Converse of `get_angle_polar`: every nonzero vector decomposes as
magnitude times (sine, cosine) of the canonical angle `get_angle` reports. -/
theorem get_angle_decomp {U : UnitTag} (v : Vector U) (hv : v ≠ Vector.zero U) :
    ∃ r : ℝ, 0 ≤ r ∧ r < twoPi ∧ v.get_angle = some ⟨r⟩ ∧
      0 < v.magnitude.value ∧
      v.x.value = v.magnitude.value * Real.sin r ∧
      v.y.value = v.magnitude.value * Real.cos r := by
  have hπ := Real.pi_pos
  have htp := twoPi_def
  obtain ⟨⟨x⟩, ⟨y⟩⟩ := v
  have hnz : ¬(x = 0 ∧ y = 0) := fun h => hv ((Vector.eq_zero_iff _).mpr h)
  have hsum : 0 < x ^ 2 + y ^ 2 := sum_sq_pos_of_ne hnz
  have hmag : (Vector.magnitude (⟨⟨x⟩, ⟨y⟩⟩ : Vector U)).value = Real.sqrt (x ^ 2 + y ^ 2) := rfl
  have hm : 0 < Real.sqrt (x ^ 2 + y ^ 2) := Real.sqrt_pos.mpr hsum
  rw [Vector.get_angle, if_neg hv, Vector.atan]
  dsimp only
  rw [hmag]
  rcases lt_trichotomy y 0 with hy | hy | hy
  · -- y < 0: the 180°-corrected branches
    have hyne : y ≠ 0 := hy.ne
    obtain ⟨hsin, hcos⟩ := arctan_sin_cos_mul_neg (x := x) hy
    rcases lt_or_le x 0 with hx | hx
    · -- x < 0 and y < 0: subtract 180°
      rw [if_pos ⟨hx, hy⟩]
      have ht : 0 < x / y := div_pos_of_neg_of_neg hx hy
      have hθ0 : 0 < Real.arctan (x / y) := by
        rw [← Real.arctan_zero]
        exact Real.arctan_strictMono ht
      have hθ2 : Real.arctan (x / y) < Real.pi / 2 := Real.arctan_lt_pi_div_two _
      refine ⟨Real.arctan (x / y) + Real.pi, by linarith, by rw [htp]; linarith, ?_, hm, ?_, ?_⟩
      · rw [atanQuot, if_neg hyne,
          in_radians_of_Ico hθ0.le (by rw [htp]; linarith),
          in_degrees_180, Angle.sub]
        dsimp only
        rw [in_radians_of_neg (by rw [htp]; linarith) (by linarith)]
        exact congrArg some (Angle.eq_iff.mpr (by rw [htp]; ring))
      · rw [Real.sin_add_pi]
        linarith [hsin]
      · rw [Real.cos_add_pi]
        linarith [hcos]
    · -- x ≥ 0 and y < 0: add 180°
      rw [if_neg (by intro ⟨hcc, _⟩; linarith), if_pos hy]
      have ht : x / y ≤ 0 := div_nonpos_iff.mpr (Or.inl ⟨hx, hy.le⟩)
      have hθ0 : Real.arctan (x / y) ≤ 0 := by
        rw [← Real.arctan_zero]
        exact Real.arctan_strictMono.monotone ht
      have hθ2 : -(Real.pi / 2) < Real.arctan (x / y) := Real.neg_pi_div_two_lt_arctan _
      refine ⟨Real.arctan (x / y) + Real.pi, by linarith, by rw [htp]; linarith, ?_, hm, ?_, ?_⟩
      · rw [atanQuot, if_neg hyne, in_degrees_180]
        rcases hθ0.lt_or_eq with hθ | hθ
        · rw [in_radians_of_neg (by rw [htp]; linarith) hθ, Angle.add]
          dsimp only
          have harg : Real.pi + (Real.arctan (x / y) + twoPi) =
              Real.arctan (x / y) + Real.pi + twoPi := by ring
          rw [harg, in_radians_of_Ico2 (by rw [htp]; linarith) (by rw [htp]; linarith)]
          exact congrArg some (Angle.eq_iff.mpr (by ring))
        · rw [hθ, in_radians_of_Ico le_rfl twoPi_pos, Angle.add]
          dsimp only
          rw [add_zero, in_radians_of_Ico hπ.le (by rw [htp]; linarith)]
          exact congrArg some (Angle.eq_iff.mpr (by ring))
      · rw [Real.sin_add_pi]
        linarith [hsin]
      · rw [Real.cos_add_pi]
        linarith [hcos]
  · -- y = 0, x ≠ 0: the IEEE ±∞ arctangent cases
    have hx : x ≠ 0 := by
      intro hx0
      exact hnz ⟨hx0, hy⟩
    rw [if_neg (by intro ⟨_, hcc⟩; rw [hy] at hcc; exact lt_irrefl _ hcc),
      if_neg (by rw [hy]; exact lt_irrefl _)]
    rcases hx.lt_or_lt with hxn | hxp
    · -- x < 0: due west, 3π/2
      have hmx : Real.sqrt (x ^ 2 + y ^ 2) = -x := by
        rw [hy]
        norm_num
        rw [← neg_sq, Real.sqrt_sq (by linarith)]
      refine ⟨3 * Real.pi / 2, by linarith, by rw [htp]; linarith, ?_, hm, ?_, ?_⟩
      · rw [atanQuot, if_pos hy, if_neg (by linarith), if_pos hxn,
          in_radians_of_neg (by rw [htp]; linarith) (by linarith)]
        exact congrArg some (Angle.eq_iff.mpr (by rw [htp]; ring))
      · have hs : Real.sin (3 * Real.pi / 2) = -1 := by
          have harg : (3 * Real.pi / 2 : ℝ) = Real.pi / 2 + Real.pi := by ring
          rw [harg, Real.sin_add_pi, Real.sin_pi_div_two]
        rw [hs, hmx]
        ring
      · have hc : Real.cos (3 * Real.pi / 2) = 0 := by
          have harg : (3 * Real.pi / 2 : ℝ) = Real.pi / 2 + Real.pi := by ring
          rw [harg, Real.cos_add_pi, Real.cos_pi_div_two, neg_zero]
        rw [hc, hmx, hy]
        ring
    · -- x > 0: due east, π/2
      have hmx : Real.sqrt (x ^ 2 + y ^ 2) = x := by
        rw [hy]
        norm_num
        exact Real.sqrt_sq (by linarith)
      refine ⟨Real.pi / 2, by linarith, by rw [htp]; linarith, ?_, hm, ?_, ?_⟩
      · rw [atanQuot, if_pos hy, if_pos hxp,
          in_radians_of_Ico (by linarith) (by rw [htp]; linarith)]
      · rw [Real.sin_pi_div_two, hmx]
        ring
      · rw [Real.cos_pi_div_two, hmx, hy]
        ring
  · -- y > 0: the base arctangent branch
    have hyne : y ≠ 0 := hy.ne'
    obtain ⟨hsin, hcos⟩ := arctan_sin_cos_mul (x := x) hy
    rw [if_neg (by intro ⟨_, hcc⟩; linarith), if_neg (by intro hcc; linarith)]
    have hθ2 : Real.arctan (x / y) < Real.pi / 2 := Real.arctan_lt_pi_div_two _
    have hθ1 : -(Real.pi / 2) < Real.arctan (x / y) := Real.neg_pi_div_two_lt_arctan _
    rcases lt_or_le x 0 with hx | hx
    · -- x < 0: fourth quadrant, arctan is negative and wraps to (3π/2, 2π)
      have ht : x / y < 0 := div_neg_of_neg_of_pos hx hy
      have hθ0 : Real.arctan (x / y) < 0 := by
        rw [← Real.arctan_zero]
        exact Real.arctan_strictMono ht
      refine ⟨Real.arctan (x / y) + twoPi, by rw [htp]; linarith, by linarith, ?_, hm, ?_, ?_⟩
      · rw [atanQuot, if_neg hyne,
          in_radians_of_neg (by rw [htp]; linarith) hθ0]
      · rw [htp, Real.sin_add_two_pi]
        linarith [hsin]
      · rw [htp, Real.cos_add_two_pi]
        linarith [hcos]
    · -- x ≥ 0: first quadrant, the arctangent itself
      have hθ0 : 0 ≤ Real.arctan (x / y) := by
        rw [← Real.arctan_zero]
        exact Real.arctan_strictMono.monotone (div_nonneg hx hy.le)
      refine ⟨Real.arctan (x / y), hθ0, by rw [htp]; linarith, ?_, hm, ?_, ?_⟩
      · rw [atanQuot, if_neg hyne,
          in_radians_of_Ico hθ0 (by rw [htp]; linarith)]
      · linarith [hsin]
      · linarith [hcos]

theorem in_degrees_0 : Angle.in_degrees 0 = ⟨0⟩ := by
  rw [in_degrees_eq le_rfl (by norm_num)]
  exact Angle.eq_iff.mpr (by ring)

theorem in_degrees_45 : Angle.in_degrees 45 = ⟨Real.pi / 4⟩ := by
  rw [in_degrees_eq (by norm_num) (by norm_num)]
  exact Angle.eq_iff.mpr (by ring)

theorem in_degrees_90 : Angle.in_degrees 90 = ⟨Real.pi / 2⟩ := by
  rw [in_degrees_eq (by norm_num) (by norm_num)]
  exact Angle.eq_iff.mpr (by ring)

theorem in_degrees_135 : Angle.in_degrees 135 = ⟨3 * Real.pi / 4⟩ := by
  rw [in_degrees_eq (by norm_num) (by norm_num)]
  exact Angle.eq_iff.mpr (by ring)

theorem in_degrees_225 : Angle.in_degrees 225 = ⟨5 * Real.pi / 4⟩ := by
  rw [in_degrees_eq (by norm_num) (by norm_num)]
  exact Angle.eq_iff.mpr (by ring)

theorem in_degrees_270 : Angle.in_degrees 270 = ⟨3 * Real.pi / 2⟩ := by
  rw [in_degrees_eq (by norm_num) (by norm_num)]
  exact Angle.eq_iff.mpr (by ring)

theorem in_degrees_315 : Angle.in_degrees 315 = ⟨7 * Real.pi / 4⟩ := by
  rw [in_degrees_eq (by norm_num) (by norm_num)]
  exact Angle.eq_iff.mpr (by ring)

theorem vec_ne_zero_of_x {U : UnitTag} {a b : ℝ} (h : a ≠ 0) :
    (⟨⟨a⟩, ⟨b⟩⟩ : Vector U) ≠ Vector.zero U :=
  fun hz => h ((Vector.eq_zero_iff _).mp hz).1

theorem vec_ne_zero_of_y {U : UnitTag} {a b : ℝ} (h : b ≠ 0) :
    (⟨⟨a⟩, ⟨b⟩⟩ : Vector U) ≠ Vector.zero U :=
  fun hz => h ((Vector.eq_zero_iff _).mp hz).2

/-! The eight quadrant examples of `get_angle`, one lemma each. -/

theorem get_angle_north :
    Vector.get_angle (U := .meters) ⟨⟨0⟩, ⟨1⟩⟩ = some (Angle.in_degrees 0) := by
  rw [in_degrees_0, Vector.get_angle,
    if_neg (vec_ne_zero_of_y (by norm_num)), Vector.atan]
  dsimp only
  rw [if_neg (by norm_num), if_neg (by norm_num)]
  rw [atanQuot, if_neg (by norm_num : (1 : ℝ) ≠ 0),
    show ((0 : ℝ) / 1) = 0 by norm_num, Real.arctan_zero,
    in_radians_of_Ico le_rfl twoPi_pos]

theorem get_angle_northeast :
    Vector.get_angle (U := .meters) ⟨⟨1⟩, ⟨1⟩⟩ = some (Angle.in_degrees 45) := by
  rw [in_degrees_45, Vector.get_angle,
    if_neg (vec_ne_zero_of_y (by norm_num)), Vector.atan]
  dsimp only
  rw [if_neg (by norm_num), if_neg (by norm_num)]
  rw [atanQuot, if_neg (by norm_num : (1 : ℝ) ≠ 0),
    show ((1 : ℝ) / 1) = 1 by norm_num, Real.arctan_one,
    in_radians_of_Ico (by linarith [Real.pi_pos]) (by rw [twoPi_def]; linarith [Real.pi_pos])]

theorem get_angle_east :
    Vector.get_angle (U := .meters) ⟨⟨1⟩, ⟨0⟩⟩ = some (Angle.in_degrees 90) := by
  rw [in_degrees_90, Vector.get_angle,
    if_neg (vec_ne_zero_of_x (by norm_num)), Vector.atan]
  dsimp only
  rw [if_neg (by norm_num), if_neg (by norm_num)]
  rw [atanQuot, if_pos rfl, if_pos (by norm_num : (0 : ℝ) < 1),
    in_radians_of_Ico (by linarith [Real.pi_pos]) (by rw [twoPi_def]; linarith [Real.pi_pos])]

theorem get_angle_southeast :
    Vector.get_angle (U := .meters) ⟨⟨1⟩, ⟨-1⟩⟩ = some (Angle.in_degrees 135) := by
  rw [in_degrees_135, Vector.get_angle,
    if_neg (vec_ne_zero_of_y (by norm_num)), Vector.atan]
  dsimp only
  rw [if_neg (by norm_num), if_pos (by norm_num : (-1 : ℝ) < 0)]
  rw [atanQuot, if_neg (by norm_num : (-1 : ℝ) ≠ 0),
    show ((1 : ℝ) / (-1)) = -1 by norm_num, Real.arctan_neg, Real.arctan_one,
    in_radians_of_neg (by rw [twoPi_def]; linarith [Real.pi_pos]) (by linarith [Real.pi_pos])]
  rw [in_degrees_180, Angle.add]
  dsimp only
  rw [in_radians_of_Ico2 (by rw [twoPi_def]; linarith [Real.pi_pos])
    (by rw [twoPi_def]; linarith [Real.pi_pos])]
  exact congrArg some (Angle.eq_iff.mpr (by rw [twoPi_def]; ring))

theorem get_angle_south :
    Vector.get_angle (U := .meters) ⟨⟨0⟩, ⟨-1⟩⟩ = some (Angle.in_degrees 180) := by
  rw [in_degrees_180, Vector.get_angle,
    if_neg (vec_ne_zero_of_y (by norm_num)), Vector.atan]
  dsimp only
  rw [if_neg (by norm_num), if_pos (by norm_num : (-1 : ℝ) < 0)]
  rw [atanQuot, if_neg (by norm_num : (-1 : ℝ) ≠ 0),
    show ((0 : ℝ) / (-1)) = 0 by norm_num, Real.arctan_zero,
    in_radians_of_Ico le_rfl twoPi_pos]
  rw [in_degrees_180, Angle.add]
  dsimp only
  rw [add_zero, in_radians_of_Ico Real.pi_pos.le (by rw [twoPi_def]; linarith [Real.pi_pos])]

theorem get_angle_southwest :
    Vector.get_angle (U := .meters) ⟨⟨-1⟩, ⟨-1⟩⟩ = some (Angle.in_degrees 225) := by
  rw [in_degrees_225, Vector.get_angle,
    if_neg (vec_ne_zero_of_y (by norm_num)), Vector.atan]
  dsimp only
  rw [if_pos ⟨by norm_num, by norm_num⟩]
  rw [atanQuot, if_neg (by norm_num : (-1 : ℝ) ≠ 0),
    show ((-1 : ℝ) / (-1)) = 1 by norm_num, Real.arctan_one,
    in_radians_of_Ico (by linarith [Real.pi_pos]) (by rw [twoPi_def]; linarith [Real.pi_pos])]
  rw [in_degrees_180, Angle.sub]
  dsimp only
  rw [in_radians_of_neg (by rw [twoPi_def]; linarith [Real.pi_pos]) (by linarith [Real.pi_pos])]
  exact congrArg some (Angle.eq_iff.mpr (by rw [twoPi_def]; ring))

theorem get_angle_west :
    Vector.get_angle (U := .meters) ⟨⟨-1⟩, ⟨0⟩⟩ = some (Angle.in_degrees 270) := by
  rw [in_degrees_270, Vector.get_angle,
    if_neg (vec_ne_zero_of_x (by norm_num)), Vector.atan]
  dsimp only
  rw [if_neg (by norm_num), if_neg (by norm_num)]
  rw [atanQuot, if_pos rfl, if_neg (by norm_num : ¬ (0 : ℝ) < -1),
    if_pos (by norm_num : (-1 : ℝ) < 0),
    in_radians_of_neg (by rw [twoPi_def]; linarith [Real.pi_pos]) (by linarith [Real.pi_pos])]
  exact congrArg some (Angle.eq_iff.mpr (by rw [twoPi_def]; ring))

theorem get_angle_northwest :
    Vector.get_angle (U := .meters) ⟨⟨-1⟩, ⟨1⟩⟩ = some (Angle.in_degrees 315) := by
  rw [in_degrees_315, Vector.get_angle,
    if_neg (vec_ne_zero_of_y (by norm_num)), Vector.atan]
  dsimp only
  rw [if_neg (by norm_num), if_neg (by norm_num)]
  rw [atanQuot, if_neg (by norm_num : (1 : ℝ) ≠ 0),
    show ((-1 : ℝ) / 1) = -1 by norm_num, Real.arctan_neg, Real.arctan_one,
    in_radians_of_neg (by rw [twoPi_def]; linarith [Real.pi_pos]) (by linarith [Real.pi_pos])]
  exact congrArg some (Angle.eq_iff.mpr (by rw [twoPi_def]; ring))

/-! ### C1 -/

/-- C1: the claim states every Angle-constructing or combining operation
leaves the stored radian value inside the canonical half-open range
[0, 2π).  The code violates this twice: `*=` (and `/=`) mutate the raw value
with no renormalization, so `Angle::in_radians(1.0) *= 7.0` stores `7.0`,
which is at least `2π`; and `Angle::in_radians(-2π)` returns exactly `2π`,
the excluded endpoint of the half-open range. -/
theorem C1_invariant_violated :
    (Angle.mulAssign (Angle.in_radians 1) 7).radians = 7
    ∧ ¬ (Angle.mulAssign (Angle.in_radians 1) 7).radians < twoPi
    ∧ (Angle.in_radians (-twoPi)).radians = twoPi
    ∧ ¬ (Angle.in_radians (-twoPi)).radians < twoPi := by
  have hπ3 := Real.pi_gt_three
  have hπ4 := Real.pi_lt_d2
  have h1 : Angle.in_radians 1 = ⟨1⟩ := by
    apply in_radians_of_Ico (by norm_num)
    rw [twoPi_def]; linarith
  have h7 : (Angle.mulAssign (Angle.in_radians 1) 7).radians = 7 := by
    rw [h1, Angle.mulAssign]; norm_num
  refine ⟨h7, ?_, ?_, ?_⟩
  · rw [h7, twoPi_def, not_lt]; linarith
  · rw [in_radians_neg_twoPi]
  · rw [in_radians_neg_twoPi]; exact lt_irrefl _

/-! ### C5 -/

/-- C5 counterexample: periodicity of `Angle::in_radians` fails at `r = 0`,
`k = -1`: the left side is the non-canonical value `2π`, the right side `0`. -/
theorem C5_counterexample :
    Angle.in_radians (0 + (-1 : ℤ) * twoPi) ≠ Angle.in_radians 0 := by
  have h1 : ((0 : ℝ) + (-1 : ℤ) * twoPi) = -twoPi := by push_cast; ring
  rw [h1, in_radians_neg_twoPi, in_radians_of_Ico le_rfl twoPi_pos]
  intro hEq
  exact twoPi_pos.ne' (congrArg Angle.radians hEq)

/-- C5 (amended): `Angle::in_radians` is `2π`-periodic on every radian value
that is not itself an exact integer multiple of `2π` (at negative exact
multiples the constructor returns `2π` instead of `0`, see the
counterexample); the claim's degree instances `in_degrees(-721) ==
in_degrees(359)` and `in_degrees(721) == in_degrees(1)` hold exactly. -/
theorem C5_periodicity_amended :
    (∀ (r : ℝ) (k : ℤ), (∀ m : ℤ, r ≠ twoPi * m) →
      Angle.in_radians (r + k * twoPi) = Angle.in_radians r)
    ∧ Angle.in_degrees (-721) = Angle.in_degrees 359
    ∧ Angle.in_degrees 721 = Angle.in_degrees 1 := by
  refine ⟨fun r k h => in_radians_add_int_mul k h, ?_, ?_⟩
  · rw [Angle.in_degrees, Angle.in_degrees]
    have harg : Angle.get_radians (-721) = Angle.get_radians 359 + (-3 : ℤ) * twoPi := by
      rw [Angle.get_radians, Angle.get_radians, twoPi_def]; push_cast; ring
    rw [harg]
    exact in_radians_add_int_mul (-3)
      (get_radians_not_multiple (not_int_multiple_of_360 (by norm_num) (by norm_num)))
  · rw [Angle.in_degrees, Angle.in_degrees]
    have harg : Angle.get_radians 721 = Angle.get_radians 1 + (2 : ℤ) * twoPi := by
      rw [Angle.get_radians, Angle.get_radians, twoPi_def]; push_cast; ring
    rw [harg]
    exact in_radians_add_int_mul 2
      (get_radians_not_multiple (not_int_multiple_of_360 (by norm_num) (by norm_num)))

/-! ### C2 -/

/-- C2: `get_angle` is absent exactly on the zero vector; any returned angle
is canonical (in [0, 2π)); the three quadrant-correction branches are as
described (both components negative: arctangent minus 180°; only y negative:
180° plus arctangent; otherwise the base arctangent); and the eight
compass-point examples produce 0°, 45°, 90°, 135°, 180°, 225°, 270°, 315°. -/
theorem C2_get_angle_spec :
    (∀ (U : UnitTag) (v : Vector U), v.get_angle = none ↔ v = Vector.zero U)
    ∧ (∀ (U : UnitTag) (v : Vector U) (a : Angle), v.get_angle = some a →
        0 ≤ a.radians ∧ a.radians < twoPi)
    ∧ (∀ (U : UnitTag) (v : Vector U), v ≠ Vector.zero U →
        v.x.value < 0 → v.y.value < 0 →
        v.get_angle = some (v.atan.sub (Angle.in_degrees 180)))
    ∧ (∀ (U : UnitTag) (v : Vector U), v ≠ Vector.zero U →
        ¬(v.x.value < 0 ∧ v.y.value < 0) → v.y.value < 0 →
        v.get_angle = some ((Angle.in_degrees 180).add v.atan))
    ∧ (∀ (U : UnitTag) (v : Vector U), v ≠ Vector.zero U → ¬ v.y.value < 0 →
        v.get_angle = some v.atan)
    ∧ Vector.get_angle (U := .meters) ⟨⟨0⟩, ⟨1⟩⟩ = some (Angle.in_degrees 0)
    ∧ Vector.get_angle (U := .meters) ⟨⟨1⟩, ⟨1⟩⟩ = some (Angle.in_degrees 45)
    ∧ Vector.get_angle (U := .meters) ⟨⟨1⟩, ⟨0⟩⟩ = some (Angle.in_degrees 90)
    ∧ Vector.get_angle (U := .meters) ⟨⟨1⟩, ⟨-1⟩⟩ = some (Angle.in_degrees 135)
    ∧ Vector.get_angle (U := .meters) ⟨⟨0⟩, ⟨-1⟩⟩ = some (Angle.in_degrees 180)
    ∧ Vector.get_angle (U := .meters) ⟨⟨-1⟩, ⟨-1⟩⟩ = some (Angle.in_degrees 225)
    ∧ Vector.get_angle (U := .meters) ⟨⟨-1⟩, ⟨0⟩⟩ = some (Angle.in_degrees 270)
    ∧ Vector.get_angle (U := .meters) ⟨⟨-1⟩, ⟨1⟩⟩ = some (Angle.in_degrees 315) := by
  have hnone : ∀ (U : UnitTag) (v : Vector U), v.get_angle = none ↔ v = Vector.zero U := by
    intro U v
    constructor
    · intro h
      by_contra hv
      rw [Vector.get_angle, if_neg hv] at h
      by_cases h1 : v.x.value < 0 ∧ v.y.value < 0
      · rw [if_pos h1] at h; exact Option.noConfusion h
      · rw [if_neg h1] at h
        by_cases h2 : v.y.value < 0
        · rw [if_pos h2] at h; exact Option.noConfusion h
        · rw [if_neg h2] at h; exact Option.noConfusion h
    · intro h
      rw [Vector.get_angle, if_pos h]
  refine ⟨hnone, ?_, ?_, ?_, ?_, get_angle_north, get_angle_northeast, get_angle_east,
    get_angle_southeast, get_angle_south, get_angle_southwest, get_angle_west,
    get_angle_northwest⟩
  · intro U v a h
    have hv : v ≠ Vector.zero U := by
      intro hz
      rw [(hnone U v).mpr hz] at h
      exact Option.noConfusion h
    obtain ⟨r, hr0, hr2, hg, -, -, -⟩ := get_angle_decomp v hv
    rw [h] at hg
    obtain rfl := Option.some.inj hg
    exact ⟨hr0, hr2⟩
  · intro U v hv h1 h2
    rw [Vector.get_angle, if_neg hv, if_pos ⟨h1, h2⟩]
  · intro U v hv h1 h2
    rw [Vector.get_angle, if_neg hv, if_neg h1, if_pos h2]
  · intro U v hv h2
    rw [Vector.get_angle, if_neg hv, if_neg (fun hc => h2 hc.2), if_neg h2]

/-! ### C3 -/

/-- C3 counterexample: the claim quantifies over every nonzero magnitude, but
for a negative magnitude the round trip fails: `from_magnitude_and_angle(-1,
0°)` is the vector (0, -1), whose angle is 180°, not 0°. -/
theorem C3_counterexample :
    (⟨-1⟩ : Scalar .meters) ≠ Scalar.zero .meters
    ∧ (Vector.from_magnitude_and_angle .meters ⟨-1⟩ (Angle.in_degrees 0)).get_angle
        = some (Angle.in_degrees 180)
    ∧ (Vector.from_magnitude_and_angle .meters ⟨-1⟩ (Angle.in_degrees 0)).get_angle
        ≠ some (Angle.in_degrees 0) := by
  have hneg : (Angle.in_degrees 0).neg = ⟨0⟩ := by
    rw [in_degrees_0, Angle.neg]
    dsimp only
    rw [neg_zero, in_radians_of_Ico le_rfl twoPi_pos]
  have hfm : Vector.from_magnitude_and_angle .meters ⟨-1⟩ (Angle.in_degrees 0)
      = ⟨⟨0⟩, ⟨-1⟩⟩ := by
    rw [Vector.from_magnitude_and_angle, hneg, Angle.sin, Angle.cos]
    dsimp only
    rw [Real.sin_zero, Real.cos_zero]
    rw [Vector.mk.injEq, Scalar.mk.injEq, Scalar.mk.injEq]
    norm_num
  refine ⟨?_, ?_, ?_⟩
  · intro h
    have := congrArg Scalar.value h
    norm_num [Scalar.zero] at this
  · rw [hfm]
    exact get_angle_south
  · rw [hfm, get_angle_south, in_degrees_180, in_degrees_0]
    intro hEq
    have h1 := congrArg Angle.radians (Option.some.inj hEq)
    exact Real.pi_ne_zero h1

/-- C3 (amended): the round trip holds for every POSITIVE magnitude and every
canonical angle (radians in [0, 2π)):
`from_magnitude_and_angle(m, a).get_angle() == Some(a)`.  The counterexample
forces the restriction from "nonzero" to "positive" (and to canonical stored
angles, the only ones the Angle constructors are meant to produce). -/
theorem C3_round_trip_amended (U : UnitTag) (m : ℝ) (hm : 0 < m) (a : Angle)
    (h0 : 0 ≤ a.radians) (h2 : a.radians < twoPi) :
    (Vector.from_magnitude_and_angle U ⟨m⟩ a).get_angle = some a := by
  have hs : a.neg.sin = -Real.sin a.radians := by
    rw [Angle.neg, Angle.sin, sin_in_radians, Real.sin_neg]
  have hc : a.neg.cos = Real.cos a.radians := by
    rw [Angle.neg, Angle.cos, cos_in_radians, Real.cos_neg]
  have hfm : Vector.from_magnitude_and_angle U ⟨m⟩ a
      = ⟨⟨m * Real.sin a.radians⟩, ⟨m * Real.cos a.radians⟩⟩ := by
    rw [Vector.from_magnitude_and_angle, hs, hc]
    rw [Vector.mk.injEq, Scalar.mk.injEq, Scalar.mk.injEq]
    constructor <;> ring
  rw [hfm, get_angle_polar U hm h0 h2]

/-- C3 witness: magnitude 1 and 90° round-trip concretely. -/
theorem C3_round_trip_witness :
    (Vector.from_magnitude_and_angle .meters ⟨1⟩ (Angle.in_degrees 90)).get_angle
      = some (Angle.in_degrees 90) := by
  apply C3_round_trip_amended .meters 1 one_pos (Angle.in_degrees 90)
  · rw [in_degrees_90]
    dsimp only
    linarith [Real.pi_pos]
  · rw [in_degrees_90]
    dsimp only
    rw [twoPi_def]
    linarith [Real.pi_pos]

/-! ### C4 -/

/-- C4 counterexample: `rotate_cw` runs AGAINST the clockwise-from-north
angle convention of `get_angle`.  The vector (0, 1) has angle 0°; rotating it
"clockwise" by 90° yields (-1, 0), whose angle is 270°, not the claimed
0° + 90° = 90°. -/
theorem C4_counterexample :
    Vector.get_angle (U := .meters) ⟨⟨0⟩, ⟨1⟩⟩ = some (Angle.in_degrees 0)
    ∧ ((⟨⟨0⟩, ⟨1⟩⟩ : Vector .meters).rotate_cw (Angle.in_degrees 90)).get_angle
        = some (Angle.in_degrees 270)
    ∧ Angle.in_degrees 270 ≠ (Angle.in_degrees 0).add (Angle.in_degrees 90) := by
  have hrot : (⟨⟨0⟩, ⟨1⟩⟩ : Vector .meters).rotate_cw (Angle.in_degrees 90)
      = ⟨⟨-1⟩, ⟨0⟩⟩ := by
    rw [Vector.rotate_cw, in_degrees_90, Angle.cos, Angle.sin]
    dsimp only
    rw [Real.cos_pi_div_two, Real.sin_pi_div_two]
    rw [Vector.mk.injEq, Scalar.mk.injEq, Scalar.mk.injEq]
    norm_num
  refine ⟨get_angle_north, ?_, ?_⟩
  · rw [hrot]
    exact get_angle_west
  · rw [in_degrees_270, in_degrees_0, in_degrees_90, Angle.add]
    dsimp only
    rw [zero_add, in_radians_of_Ico (by linarith [Real.pi_pos])
      (by rw [twoPi_def]; linarith [Real.pi_pos])]
    intro hEq
    have h1 := congrArg Angle.radians hEq
    dsimp only at h1
    exact Real.pi_ne_zero (by linarith)

/-- C4 (amended): rotating by a canonical angle `a` SUBTRACTS `a` from the
reported direction (with Angle subtraction wrapping modulo 2π): for every
vector with a defined angle `g`, `(v.rotate_cw(a)).get_angle() ==
Some(g - a)`.  The claim's `+ a` is replaced by `- a`, which the
counterexample forces. -/
theorem C4_rotate_amended (U : UnitTag) (v : Vector U) (a g : Angle)
    (hg : v.get_angle = some g) (h0 : 0 ≤ a.radians) (h2 : a.radians < twoPi) :
    (v.rotate_cw a).get_angle = some (g.sub a) := by
  have hv : v ≠ Vector.zero U := by
    intro hz
    rw [Vector.get_angle, if_pos hz] at hg
    exact Option.noConfusion hg
  obtain ⟨r, hr0, hr2, hgr, hmpos, hx, hy⟩ := get_angle_decomp v hv
  rw [hg] at hgr
  obtain rfl := Option.some.inj hgr
  have htp := twoPi_def
  have hrot : v.rotate_cw a = ⟨⟨v.magnitude.value * Real.sin (r - a.radians)⟩,
      ⟨v.magnitude.value * Real.cos (r - a.radians)⟩⟩ := by
    rw [Vector.rotate_cw, Angle.cos, Angle.sin, hx, hy]
    rw [Vector.mk.injEq, Scalar.mk.injEq, Scalar.mk.injEq]
    constructor
    · rw [Real.sin_sub]; ring
    · rw [Real.cos_sub]; ring
  rw [hrot, Angle.sub]
  dsimp only
  rcases lt_or_le (r - a.radians) 0 with hneg | hpos
  · rw [in_radians_of_neg (by rw [htp]; rw [htp] at hr2 h2; linarith) hneg]
    have hs2 : Real.sin (r - a.radians + twoPi) = Real.sin (r - a.radians) := by
      rw [htp, Real.sin_add_two_pi]
    have hc2 : Real.cos (r - a.radians + twoPi) = Real.cos (r - a.radians) := by
      rw [htp, Real.cos_add_two_pi]
    rw [← hs2, ← hc2]
    exact get_angle_polar U hmpos (by rw [htp]; rw [htp] at hr2 h2; linarith)
      (by rw [htp]; rw [htp] at hr2 h2; linarith)
  · rw [in_radians_of_Ico hpos (by linarith)]
    exact get_angle_polar U hmpos hpos (by linarith)

/-- C4 witness: the amended law at the counterexample's input: rotating
(0, 1) by 90° lands on angle 0° − 90° (= 270° after wrapping). -/
theorem C4_rotate_witness :
    ((⟨⟨0⟩, ⟨1⟩⟩ : Vector .meters).rotate_cw (Angle.in_degrees 90)).get_angle
      = some ((Angle.in_degrees 0).sub (Angle.in_degrees 90)) := by
  apply C4_rotate_amended .meters _ (Angle.in_degrees 90) (Angle.in_degrees 0)
    get_angle_north
  · rw [in_degrees_90]
    dsimp only
    linarith [Real.pi_pos]
  · rw [in_degrees_90]
    dsimp only
    rw [twoPi_def]
    linarith [Real.pi_pos]

/-! ### C6 -/

/-- C6: scaling the unit vector back by the magnitude reconstructs the
vector exactly, in both operand orders, and `Vector(0, 2.1).unit_vector()`
is `Some(Vector(0, 1))`. -/
theorem C6_unit_vector_reconstruction :
    (∀ (U : UnitTag) (v : Vector U) (u : UnitVector), v.unit_vector = some u →
        v.magnitude.mulUnitVector u = v ∧ u.unitVectorMul v.magnitude = v)
    ∧ Vector.unit_vector (U := .meters) ⟨⟨0⟩, ⟨2.1⟩⟩ = some ⟨⟨0⟩, ⟨1⟩⟩ := by
  have main : ∀ (U : UnitTag) (v : Vector U) (u : UnitVector), v.unit_vector = some u →
      v.magnitude.mulUnitVector u = v := by
    intro U v u h
    obtain ⟨⟨x⟩, ⟨y⟩⟩ := v
    have hv : (⟨⟨x⟩, ⟨y⟩⟩ : Vector U) ≠ Vector.zero U := by
      intro hz
      rw [Vector.unit_vector, if_pos hz] at h
      exact Option.noConfusion h
    rw [Vector.unit_vector, if_neg hv] at h
    obtain rfl := Option.some.inj h
    have hnz : ¬(x = 0 ∧ y = 0) := fun hz => hv ((Vector.eq_zero_iff _).mpr hz)
    have hm : (0 : ℝ) < Real.sqrt (x ^ 2 + y ^ 2) :=
      Real.sqrt_pos.mpr (sum_sq_pos_of_ne hnz)
    rw [Scalar.mulUnitVector]
    dsimp only [Vector.magnitude, Vector.magnitude_squared, Scalar.divSelf]
    rw [Vector.mk.injEq, Scalar.mk.injEq, Scalar.mk.injEq]
    constructor <;> field_simp
  refine ⟨fun U v u h => ⟨main U v u h, ?_⟩, ?_⟩
  · rw [Vector.unitVectorMul]
    exact main U v u h
  · rw [Vector.unit_vector, if_neg (vec_ne_zero_of_y (by norm_num))]
    have hM : Vector.magnitude (⟨⟨0⟩, ⟨2.1⟩⟩ : Vector .meters) = ⟨2.1⟩ := by
      rw [Vector.magnitude, Scalar.mk.injEq]
      dsimp only [Vector.magnitude_squared]
      rw [show ((0 : ℝ)) ^ 2 + (2.1 : ℝ) ^ 2 = 2.1 ^ 2 by norm_num]
      exact Real.sqrt_sq (by norm_num)
    rw [hM]
    dsimp only [Scalar.divSelf]
    norm_num [Vector.mk.injEq, Scalar.mk.injEq]

/-! ### C7 -/

/-- C7: `unit_vector` is absent exactly on the zero vector; on every other
vector it is the component-wise division of the values by the magnitude
value, re-wrapped as a dimensionless vector. -/
theorem C7_unit_vector_none_iff_zero :
    (∀ (U : UnitTag) (v : Vector U), v.unit_vector = none ↔ v = Vector.zero U)
    ∧ (∀ (U : UnitTag) (v : Vector U), v ≠ Vector.zero U →
        v.unit_vector = some ⟨⟨v.x.value / v.magnitude.value⟩,
          ⟨v.y.value / v.magnitude.value⟩⟩) := by
  constructor
  · intro U v
    constructor
    · intro h
      by_contra hv
      rw [Vector.unit_vector, if_neg hv] at h
      exact Option.noConfusion h
    · intro h
      rw [Vector.unit_vector, if_pos h]
  · intro U v hv
    rw [Vector.unit_vector, if_neg hv]
    rfl

/-! ### C8 -/

/-- C8: the registered conversion operators multiply and divide the
underlying values and re-tag the unit as the table prescribes, commutatively
for multiplication: the `Velocity * Time`, `Time * Velocity`,
`Position / Time`, `Length * Length` and `Area / Length` identities, and the
general law for every registered scalar triple `A = B × C`. -/
theorem C8_conversion_table :
    Vector.convMulVS VectorTriple.meters_seconds
        (⟨⟨2⟩, ⟨3⟩⟩ : Vector .metersPerSecond) ⟨5⟩ = (⟨⟨10⟩, ⟨15⟩⟩ : Vector .meters)
    ∧ Vector.convMulSV VectorTriple.meters_seconds
        (⟨5⟩ : Scalar .seconds) ⟨⟨2⟩, ⟨3⟩⟩ = (⟨⟨10⟩, ⟨15⟩⟩ : Vector .meters)
    ∧ Vector.convDiv VectorTriple.meters_seconds
        (⟨⟨2⟩, ⟨3⟩⟩ : Vector .meters) ⟨5⟩ = (⟨⟨0.4⟩, ⟨0.6⟩⟩ : Vector .metersPerSecond)
    ∧ Scalar.squareMul SquareRel.meters ⟨2⟩ ⟨3⟩ = (⟨6⟩ : Scalar .metersSquared)
    ∧ Scalar.squareDiv SquareRel.meters ⟨6⟩ ⟨3⟩ = (⟨2⟩ : Scalar .meters)
    ∧ (∀ (A B C : UnitTag) (h : ScalarTriple A B C) (b c : ℝ),
        Scalar.convMulDR h ⟨b⟩ ⟨c⟩ = (⟨b * c⟩ : Scalar A)
        ∧ Scalar.convMulRD h ⟨c⟩ ⟨b⟩ = (⟨c * b⟩ : Scalar A)
        ∧ Scalar.convMulDR h ⟨b⟩ ⟨c⟩ = Scalar.convMulRD h ⟨c⟩ ⟨b⟩
        ∧ ∀ n : ℝ, Scalar.convDivDenom h (⟨n⟩ : Scalar A) ⟨b⟩ = (⟨n / b⟩ : Scalar C)) := by
  refine ⟨?_, ?_, ?_, ?_, ?_, ?_⟩
  · rw [Vector.convMulVS]
    norm_num [Vector.mk.injEq, Scalar.mk.injEq]
  · rw [Vector.convMulSV]
    norm_num [Vector.mk.injEq, Scalar.mk.injEq]
  · rw [Vector.convDiv]
    norm_num [Vector.mk.injEq, Scalar.mk.injEq]
  · rw [Scalar.squareMul]
    norm_num [Scalar.mk.injEq]
  · rw [Scalar.squareDiv]
    norm_num [Scalar.mk.injEq]
  · intro A B C h b c
    refine ⟨rfl, rfl, ?_, fun n => rfl⟩
    rw [Scalar.convMulDR, Scalar.convMulRD, Scalar.mk.injEq]
    exact mul_comm b c

/-! ### C9 -/

/-- C9: `magnitude` is the plain square root of `magnitude_squared`
(`x² + y²` on the raw values), re-tagged to `U` without any squared-unit
conversion; `Vector(3,4)` has magnitude 5 and the zero vector magnitude 0. -/
theorem C9_magnitude_sqrt :
    (∀ (U : UnitTag) (v : Vector U), v.magnitude = ⟨Real.sqrt v.magnitude_squared⟩)
    ∧ (∀ (U : UnitTag) (v : Vector U), v.magnitude_squared = v.x.value ^ 2 + v.y.value ^ 2)
    ∧ Vector.magnitude (U := .meters) ⟨⟨3⟩, ⟨4⟩⟩ = ⟨5⟩
    ∧ Vector.magnitude (Vector.zero .meters) = ⟨0⟩ := by
  refine ⟨fun U v => rfl, fun U v => rfl, ?_, ?_⟩
  · rw [Vector.magnitude, Scalar.mk.injEq]
    dsimp only [Vector.magnitude_squared]
    rw [show (3 : ℝ) ^ 2 + (4 : ℝ) ^ 2 = 5 ^ 2 by norm_num]
    exact Real.sqrt_sq (by norm_num)
  · rw [Vector.magnitude, Scalar.mk.injEq]
    dsimp only [Vector.magnitude_squared, Vector.zero, Scalar.zero]
    rw [show (0 : ℝ) ^ 2 + (0 : ℝ) ^ 2 = (0 : ℝ) by norm_num]
    exact Real.sqrt_zero

/-! ### C10 -/

/-- C10: dividing a `Vector<U>` by a same-unit `Scalar<U>` is a public
operation yielding the dimensionless `Vector<Float>` of component-wise value
quotients — exactly the vector analogue of the scalar same-unit ratio. -/
theorem C10_vector_div_same_unit :
    (∀ (U : UnitTag) (v : Vector U) (s : Scalar U),
        v.divScalarSame s = (⟨⟨v.x.value / s.value⟩, ⟨v.y.value / s.value⟩⟩ : Vector .float))
    ∧ (∀ (U : UnitTag) (v : Vector U) (s : Scalar U),
        (v.divScalarSame s).x.value = v.x.divSelf s
        ∧ (v.divScalarSame s).y.value = v.y.divSelf s)
    ∧ Vector.divScalarSame (U := .meters) ⟨⟨3⟩, ⟨5⟩⟩ ⟨2⟩ = ⟨⟨1.5⟩, ⟨2.5⟩⟩ := by
  refine ⟨fun U v s => rfl, fun U v s => ⟨rfl, rfl⟩, ?_⟩
  rw [Vector.divScalarSame]
  norm_num [Vector.mk.injEq, Scalar.mk.injEq]

end Physics
